import Mathlib

/-!
Shallow embedding of the litematic-editor region codec
(src/region/utils.rs, src/region/region.rs, src/volume.rs, src/vector.rs,
src/block_state.rs).

Machine-integer conventions of the embedding:

* Rust `i64` / `u64` values are represented by their 64-bit pattern, a `Nat`
  in `[0, 2^64)`.  Rust's `>>` on `i64` is an arithmetic shift and is modelled
  by `sar64`; `<<` drops overflowing bits (`shl64`); `rotate_left` is
  `rotl64`; `checked_shl`/`checked_shr` followed by `unwrap_or(0)` are
  `shlChecked0`/`shrChecked0`; `!` is `not64`; `(1_i64 << b) - 1` is
  `mask64 b` (faithful for the bit widths `b ≤ 62` that the codec uses).
* Rust `i32` values are represented by `Int`, with the release-mode wrapping
  arithmetic `wrap32`/`add32`/`sub32`/`mul32`, the `i32 → u64` sign-extending
  cast `castU64` and the `u64 → i32` truncating cast `castI32`.
* `HashMap<Vector3<i32>, BlockState>` is represented by an association list
  with `minsert` (insert-or-replace), `mremove` and `mlookup`; a Rust map
  never has duplicate keys, which matches lists whose keys are `Nodup`.
  Iteration order of a `HashMap`/`HashSet` is unspecified in Rust; the model
  fixes the list order wherever the source iterates.
* Rust panics (`unreachable!()`, out-of-bounds indexing) are modelled by
  `Option`/`DecodeOutcome.panic` results.
* The NBT documents are modelled structurally (`RegionDoc`, `PaletteTag`):
  only the shape information the region codec inspects is kept.
-/

namespace Litematic

/-! ### 64-bit word primitives (Rust `i64` patterns as `Nat < 2^64`) -/

/-- Rust `<<` on `i64`/`u64` patterns: shift left, dropping overflow. -/
def shl64 (x k : Nat) : Nat := (x <<< k) % 2 ^ 64

/-- Rust `checked_shl(k).unwrap_or(0)` on a 64-bit pattern. -/
def shlChecked0 (x k : Nat) : Nat := if k < 64 then (x <<< k) % 2 ^ 64 else 0

/-- Rust `checked_shr(k).unwrap_or(0)` on a 64-bit pattern. -/
def shrChecked0 (x k : Nat) : Nat := if k < 64 then x >>> k else 0

/-- Rust `i64::rotate_left` on a 64-bit pattern. -/
def rotl64 (x k : Nat) : Nat := ((x <<< (k % 64)) % 2 ^ 64) ||| (x >>> (64 - k % 64))

/-- Rust `!` (bitwise not) on a 64-bit pattern. -/
def not64 (x : Nat) : Nat := 2 ^ 64 - 1 - x

/-- Rust `>>` on `i64`: ARITHMETIC shift right of the 64-bit pattern `x`
by `k ≤ 64` places (the sign bit is replicated into the top `k` bits). -/
def sar64 (x k : Nat) : Nat :=
  (x >>> k) + (if 2 ^ 63 ≤ x then 2 ^ 64 - 2 ^ (64 - k) else 0)

/-- Rust `(1_i64 << bits) - 1`, the low-`b`-bits mask (for `b ≤ 62`). -/
def mask64 (b : Nat) : Nat := 2 ^ b - 1

/-! ### The packed bit-array codec (src/region/utils.rs) -/

/-- Embeds `Region::get_index_out_of_packed_array`.  `array` holds `i64`
patterns; `position_in_array` is the field index, `bits_per_position` the
field width.  The source indexes `array[index]`, which panics when
`index ≥ array.len()`; every theorem below restricts to in-bounds indices,
where `List.getD` agrees with the source. -/
def get_index_out_of_packed_array (array : List Nat)
    (position_in_array bits_per_position : Nat) : Nat :=
  let pos := position_in_array * bits_per_position
  let pos_in_long := pos % 64
  let index := pos / 64
  let bitmap := rotl64 (mask64 bits_per_position) pos_in_long
  let value := sar64 ((array.getD index 0) &&& bitmap) pos_in_long
  if index < array.length - 1 then
    value ||| shlChecked0 ((array.getD (index + 1) 0) &&& bitmap) (64 - pos_in_long)
  else
    value

/-- Embeds `Region::set_index_in_packed_array` (value is the `i64` pattern
to store). -/
def set_index_in_packed_array (array : List Nat) (value : Nat)
    (position_in_array bits_per_position : Nat) : List Nat :=
  let pos := position_in_array * bits_per_position
  let pos_in_long := pos % 64
  let index := pos / 64
  let bitmap_1 := shl64 (mask64 bits_per_position) pos_in_long
  let rotated_value := rotl64 value pos_in_long
  let a := array.set index
    (((array.getD index 0) &&& not64 bitmap_1) ||| (rotated_value &&& bitmap_1))
  if index < array.length - 1 then
    let bitmap_2 := shrChecked0 (mask64 bits_per_position) (64 - pos_in_long)
    a.set (index + 1)
      (((a.getD (index + 1) 0) &&& not64 bitmap_2) ||| (rotated_value &&& bitmap_2))
  else
    a

/-- Modelled from the spec's words (§4.1 `getField`), for comparison with the
source getter: concatenate `words[wordIndex]` and `words[wordIndex+1]` (when
it exists) into a 128-bit little-endian value, shift right by the bit offset
and mask to the low `bits_per_position` bits. -/
def get_index_spec128 (array : List Nat)
    (position_in_array bits_per_position : Nat) : Nat :=
  let pos := position_in_array * bits_per_position
  let pos_in_long := pos % 64
  let index := pos / 64
  let w0 := array.getD index 0
  let w1 := if index + 1 < array.length then array.getD (index + 1) 0 else 0
  ((w0 + w1 * 2 ^ 64) >>> pos_in_long) &&& mask64 bits_per_position

/-! ### 32-bit integer primitives (Rust `i32` as wrapped `Int`) -/

/-- Release-mode wrapping of an integer into the `i32` range. -/
def wrap32 (n : Int) : Int := (n + 2 ^ 31) % 2 ^ 32 - 2 ^ 31

/-- Rust `i32` addition (release mode wraps). -/
def add32 (a b : Int) : Int := wrap32 (a + b)

/-- Rust `i32` subtraction (release mode wraps). -/
def sub32 (a b : Int) : Int := wrap32 (a - b)

/-- Rust `i32` multiplication (release mode wraps). -/
def mul32 (a b : Int) : Int := wrap32 (a * b)

/-- Rust `i32 as u64` (sign-extending cast), as a 64-bit pattern. -/
def castU64 (n : Int) : Nat := (n % (2 ^ 64 : Int)).toNat

/-- Rust `u64 as i32` (truncating cast), as an integer value. -/
def castI32 (n : Nat) : Int :=
  if n % 2 ^ 32 < 2 ^ 31 then ((n % 2 ^ 32 : Nat) : Int)
  else ((n % 2 ^ 32 : Nat) : Int) - 2 ^ 32

/-! ### Vector3 (src/vector.rs, instantiated at `i32`) -/

/-- Embeds `Vector3<i32>`. -/
structure Vector3 where
  x : Int
  y : Int
  z : Int
deriving DecidableEq

/-- Componentwise wrapping addition (the `Add` impl at `i32`). -/
def vadd32 (a b : Vector3) : Vector3 :=
  ⟨add32 a.x b.x, add32 a.y b.y, add32 a.z b.z⟩

/-- Componentwise wrapping subtraction (the `Sub` impl at `i32`). -/
def vsub32 (a b : Vector3) : Vector3 :=
  ⟨sub32 a.x b.x, sub32 a.y b.y, sub32 a.z b.z⟩

/-- Embeds `Vector3::fits_in_positive`. -/
def fits_in_positive (self other : Vector3) : Prop :=
  other.x ≤ self.x ∧ other.y ≤ self.y ∧ other.z ≤ self.z

/-- Embeds `Vector3::fits_in_negative`. -/
def fits_in_negative (self other : Vector3) : Prop :=
  self.x ≤ other.x ∧ self.y ≤ other.y ∧ self.z ≤ other.z

instance (a b : Vector3) : Decidable (fits_in_positive a b) := by
  unfold fits_in_positive; infer_instance

instance (a b : Vector3) : Decidable (fits_in_negative a b) := by
  unfold fits_in_negative; infer_instance

/-- Embeds `Vector3::volume`: `(x * y * z).abs()` in `i32` arithmetic.
(`i32::abs` of `i32::MIN` would itself overflow; that edge is not reached by
any theorem below and the model takes the mathematical absolute value.) -/
def vecVolume (v : Vector3) : Int := |mul32 (mul32 v.x v.y) v.z|

/-! ### Coordinate/index maps (src/region/utils.rs) -/

/-- Embeds `Region::index_to_coords`.  The source's `u64` locals
(`y = index / (size.x * size.z) as u64`, `z = (index % ..) / size.x as u64`,
`x = (index % ..) % size.x as u64`) are inlined; the `i32` products, the
sign-extending casts to `u64` and the truncating casts back to `i32` are
reproduced exactly. -/
def index_to_coords (size : Vector3) (index : Nat) : Option Vector3 :=
  if castU64 (vecVolume size) ≤ index then none
  else
    some ⟨castI32 ((index % castU64 (mul32 size.x size.z)) % castU64 size.x),
          castI32 (index / castU64 (mul32 size.x size.z)),
          castI32 ((index % castU64 (mul32 size.x size.z)) / castU64 size.x)⟩

/-- Embeds `Region::coords_to_index`. -/
def coords_to_index (size pos : Vector3) : Option Nat :=
  if fits_in_positive pos ⟨0, 0, 0⟩ ∧ fits_in_negative pos (vsub32 size ⟨1, 1, 1⟩) then
    some (castU64 (add32 (add32 (mul32 (mul32 pos.y size.x) size.z)
      (mul32 pos.z size.x)) pos.x))
  else none

/-! ### Volume (src/volume.rs) -/

/-- Embeds `Volume` (a box given by two corner points). -/
structure Volume where
  pos1 : Vector3
  pos2 : Vector3
deriving DecidableEq

/-- Embeds `Volume::new`. -/
def Volume.new (pos size : Vector3) : Volume := ⟨pos, vadd32 pos size⟩

/-- Embeds `Volume::origin`. -/
def Volume.origin (v : Volume) : Vector3 := v.pos1

/-- Embeds `Volume::size`. -/
def Volume.size (v : Volume) : Vector3 := vsub32 v.pos2 v.pos1

/-- Embeds `Volume::volume`. -/
def Volume.volume (v : Volume) : Int := vecVolume v.size

/-- One axis of `Volume::expand_to_fit` (the loop body over `i in 0..3`):
given the two corner scalars and the coordinate, returns the new corners. -/
def expand1 (p1 p2 c : Int) : Int × Int :=
  if p1 < p2 then
    (if c < p1 then c else p1, if p2 < add32 c 1 then add32 c 1 else p2)
  else if p2 < p1 then
    (if p1 < add32 c 1 then add32 c 1 else p1, if c < p2 then c else p2)
  else
    (p1, if p1 ≤ c then add32 c 1 else c)

/-- Embeds `Volume::expand_to_fit` (applied componentwise). -/
def Volume.expand_to_fit (v : Volume) (c : Vector3) : Volume :=
  ⟨⟨(expand1 v.pos1.x v.pos2.x c.x).1, (expand1 v.pos1.y v.pos2.y c.y).1,
    (expand1 v.pos1.z v.pos2.z c.z).1⟩,
   ⟨(expand1 v.pos1.x v.pos2.x c.x).2, (expand1 v.pos1.y v.pos2.y c.y).2,
    (expand1 v.pos1.z v.pos2.z c.z).2⟩⟩

/-- One axis of `Volume::make_size_positive`: swap the two corner scalars
when `pos1 > pos2`. -/
def swapAxis (p1 p2 : Int) : Int × Int := if p2 < p1 then (p2, p1) else (p1, p2)

/-- Embeds `Volume::make_size_positive` (swap corners per axis). -/
def Volume.make_size_positive (v : Volume) : Volume :=
  ⟨⟨(swapAxis v.pos1.x v.pos2.x).1, (swapAxis v.pos1.y v.pos2.y).1,
    (swapAxis v.pos1.z v.pos2.z).1⟩,
   ⟨(swapAxis v.pos1.x v.pos2.x).2, (swapAxis v.pos1.y v.pos2.y).2,
    (swapAxis v.pos1.z v.pos2.z).2⟩⟩

/-- The point set of a volume, for unit-cube coordinates: after
normalization, `pos1 ≤ p` and `p < pos2` on every axis (a coordinate
occupies the unit cube `[p, p+1)`). -/
def containsPoint (v : Volume) (p : Vector3) : Prop :=
  v.make_size_positive.pos1.x ≤ p.x ∧ p.x < v.make_size_positive.pos2.x ∧
  v.make_size_positive.pos1.y ≤ p.y ∧ p.y < v.make_size_positive.pos2.y ∧
  v.make_size_positive.pos1.z ≤ p.z ∧ p.z < v.make_size_positive.pos2.z

instance (v : Volume) (p : Vector3) : Decidable (containsPoint v p) := by
  unfold containsPoint; infer_instance

/-! ### BlockState (src/block_state.rs) -/

/-- Embeds `BlockState` (`properties` as an association list; the Rust
`HashMap` equality is order-independent, but every state handled by the
theorems below has an empty property list, where the two notions agree). -/
structure BlockState where
  block : String
  properties : List (String × String)
deriving DecidableEq

/-- Rust `str::to_lowercase`, character by character (the block names in
play are ASCII, where per-character lowering agrees with Rust's
Unicode-aware lowering).  Defined over the character list so that the
kernel can evaluate it. -/
def lowerString (s : String) : String := ⟨s.data.map Char.toLower⟩

/-- Rust `str::contains(char)`, over the character list. -/
def containsChar (s : String) (c : Char) : Bool := s.data.any (fun a => a = c)

/-- Embeds `BlockState::prefix_block_name`. -/
def prefix_block_name (name : String) : String :=
  if !(containsChar name ':') then lowerString (("minecraft:") ++ name)
  else lowerString name

/-- Embeds `BlockState::new`. -/
def BlockState.new (block : String) (properties : Option (List (String × String))) :
    BlockState :=
  ⟨prefix_block_name block, properties.getD []⟩

/-- The distinguished default state `BlockState::new("air", None)`. -/
def airDefault : BlockState := BlockState.new ("air") none

/-! ### Association-list maps (the `HashMap<Vector3<i32>, BlockState>`) -/

/-- The sparse block map. -/
abbrev Blocks := List (Vector3 × BlockState)

/-- Lookup in the association list (`HashMap::get`). -/
def mlookup : Blocks → Vector3 → Option BlockState
  | [], _ => none
  | kv :: rest, k => if kv.1 = k then some kv.2 else mlookup rest k

/-- Insert-or-replace (`HashMap::insert`). -/
def minsert : Blocks → Vector3 → BlockState → Blocks
  | [], k, v => [(k, v)]
  | kv :: rest, k, v => if kv.1 = k then (k, v) :: rest else kv :: minsert rest k v

/-- Remove a key (`HashMap::remove`). -/
def mremove : Blocks → Vector3 → Blocks
  | [], _ => []
  | kv :: rest, k => if kv.1 = k then rest else kv :: mremove rest k

/-- No entry of the map carries the default air state. -/
def airFree (m : Blocks) : Prop := ∀ kv ∈ m, kv.2 ≠ airDefault

/-! ### Region (src/region/region.rs, src/region/utils.rs) -/

/-- Embeds `Region` (the four opaque passthrough payloads are omitted:
no claim concerns them). -/
structure Region where
  volume : Volume
  blocks : Blocks
deriving DecidableEq

/-- Embeds `Region::new`. -/
def Region.new : Region := ⟨⟨⟨0, 0, 0⟩, ⟨0, 0, 0⟩⟩, []⟩

/-- Embeds `Region::set_block`. -/
def set_block (r : Region) (pos : Vector3) (block : BlockState) : Region :=
  if block ≠ airDefault then { r with blocks := minsert r.blocks pos block }
  else { r with blocks := mremove r.blocks pos }

/-- Embeds the `Region::volume` METHOD (named `volume'` because the struct
field is already called `volume`): fold `expand_to_fit` over every stored
key translated by the declared origin.  The source folds over
`HashMap::keys()` in unspecified order; the model uses list order. -/
def Region.volume' (r : Region) : Volume :=
  r.blocks.foldl (fun v kv => v.expand_to_fit (vadd32 kv.1 r.volume.origin)) r.volume

/-- Wrapping `usize` subtraction `a - b` (release mode; a debug build
panics on underflow), for `b ≤ 2^64`. -/
def wrapSub64 (a b : Nat) : Nat := (a + (2 ^ 64 - b)) % 2 ^ 64

/-- Bit length of a `u64` (number of bits needed), by structural fuel. -/
def bitlenAux : Nat → Nat → Nat
  | 0, _ => 0
  | fuel + 1, n => if n = 0 then 0 else bitlenAux fuel (n / 2) + 1

/-- Rust `u64::leading_zeros` for values below `2^64`. -/
def leading_zeros64 (x : Nat) : Nat := 64 - bitlenAux 64 x

/-- Embeds `Region::calculate_bits`:
`(usize::BITS - (parsed_palette_length - 1).leading_zeros()).max(2)` with
the release-mode wrapping subtraction. -/
def calculate_bits (parsed_palette_length : Nat) : Nat :=
  max (64 - leading_zeros64 (wrapSub64 parsed_palette_length 1)) 2

/-- Embeds `Region::calculate_amt_of_longs` (`i32` arithmetic; Rust `/` and
`%` on `i32` truncate toward zero). -/
def calculate_amt_of_longs (region_volume : Int) (bits : Nat) : Int :=
  let bits_required := mul32 region_volume (Int.ofNat bits)
  Int.tdiv bits_required 64 + if Int.tmod bits_required 64 = 0 then 0 else 1

/-- One step of `Region::unpack_packed_array`'s loop; `none` models the
panics (`unreachable!()` and `palette[palette_index]` out of bounds). -/
def unpackStep (array : List Nat) (palette : List BlockState)
    (bits_per_position : Nat) (region_size : Vector3)
    (acc : Blocks) (block : Nat) : Option Blocks :=
  match index_to_coords region_size block with
  | none => none
  | some coords =>
    match palette.get? (get_index_out_of_packed_array array block bits_per_position) with
    | none => none
    | some st => if st = airDefault then some acc else some (minsert acc coords st)

/-- Embeds `Region::unpack_packed_array` (`none` models a panic). -/
def unpack_packed_array (array : List Nat) (palette : List BlockState)
    (bits_per_position : Nat) (region_size : Vector3) : Option Blocks :=
  let blocks := min (array.length * 64 / bits_per_position) (castU64 (vecVolume region_size))
  (List.range blocks).foldlM (unpackStep array palette bits_per_position region_size) []

/-- Keep the first occurrence of every value (stands in for collecting the
map's values into a `HashSet`, whose iteration order the source leaves
unspecified). -/
def dedupFirst : List BlockState → List BlockState
  | [] => []
  | b :: rest => b :: (dedupFirst rest).filter (fun v => ¬ v = b)

/-- Embeds `Region::generate_palette_nbt`: the distinct stored states with
the default air state inserted at position 0. -/
def generate_palette_nbt (blocks : Blocks) : List BlockState :=
  airDefault :: dedupFirst (blocks.map Prod.snd)

/-- Embeds `Region::generate_block_states_nbt` (`none` models the
`unwrap` and `unreachable!()` panics). -/
def generate_block_states_nbt (r : Region) (region_volume : Volume)
    (palette : List BlockState) : Option (List Nat) :=
  let bits := calculate_bits palette.length
  let longs := calculate_amt_of_longs region_volume.volume bits
  let init : List Nat := List.replicate longs.toNat 0
  r.blocks.foldlM (fun block_states kv =>
    match palette.findIdx? (fun v => v = kv.2) with
    | none => none
    | some palette_position =>
      match coords_to_index region_volume.size (vsub32 kv.1 region_volume.origin) with
      | none => none
      | some ci => some (set_index_in_packed_array block_states palette_position ci bits))
    init

/-! ### The region document and codec entry points -/

/-- One entry of the on-disk `BlockStatePalette` list: a compound with a
`Name` and an optional `Properties` compound, or a wrongly-tagged element. -/
inductive PaletteTag where
  | compound (name : String) (properties : Option (List (String × String)))
  | nonCompound
deriving DecidableEq

/-- The region compound fields the codec reads/writes (opaque passthrough
lists omitted; `blockStates` holds the `i64` word patterns). -/
structure RegionDoc where
  blockStatePalette : List PaletteTag
  blockStates : List Nat
  size : Vector3
  position : Vector3
deriving DecidableEq

/-- The decode outcome: a parsed region, a structured parse error, or a
panic. -/
inductive DecodeOutcome where
  | ok (r : Region)
  | parseError (tag : String)
  | panic
deriving DecidableEq

/-- Embeds `BlockState::new_from_nbt` on a well-shaped palette compound
(an absent `Properties` compound parses as the empty property set). -/
def blockstate_from_nbt (name : String)
    (properties : Option (List (String × String))) : BlockState :=
  ⟨prefix_block_name name, properties.getD []⟩

/-- Embeds `Region::parse_palette`. -/
def parse_palette : List PaletteTag → Except String (List BlockState)
  | [] => .ok []
  | .nonCompound :: _ => .error ("BlockStatePalette")
  | .compound n props :: rest =>
    match parse_palette rest with
    | .error e => .error e
    | .ok parsed => .ok (blockstate_from_nbt n props :: parsed)

/-- Embeds the `Into<NbtTag>` impl for `&BlockState` (`Properties` omitted
when empty). -/
def blockstate_to_nbt (b : BlockState) : PaletteTag :=
  .compound b.block (if b.properties = [] then none else some b.properties)

/-- Embeds `Region::new_from_nbt` on a structurally well-typed region
compound (missing-field and wrong-type errors for the top-level fields are
not representable in `RegionDoc`; `parseError` covers the palette's
wrong-tag error, `panic` the unpacking panics). -/
def new_from_nbt (data : RegionDoc) : DecodeOutcome :=
  match parse_palette data.blockStatePalette with
  | .error e => .parseError e
  | .ok parsed_palette =>
    match unpack_packed_array data.blockStates parsed_palette
        (calculate_bits parsed_palette.length) data.size with
    | none => .panic
    | some blocks =>
      .ok { volume := Volume.new data.position data.size, blocks := blocks }

/-- Embeds `Region::to_nbt` (`none` models a panic inside the block-state
generation).  Returns the written document and the effective volume, exactly
the fields the source inserts: the palette, `Position = volume.origin()`,
`Size = volume.size()` (NOT normalized) and the packed `BlockStates`
generated against `volume.make_size_positive()`. -/
def to_nbt (r : Region) : Option (RegionDoc × Volume) :=
  match generate_block_states_nbt r (Region.volume' r).make_size_positive
      (generate_palette_nbt r.blocks) with
  | none => none
  | some block_states =>
    some ({ blockStatePalette := (generate_palette_nbt r.blocks).map blockstate_to_nbt,
            blockStates := block_states,
            size := (Region.volume' r).size,
            position := (Region.volume' r).origin }, Region.volume' r)

/-- The `Size` compound that `to_nbt` writes, when the encode does not
panic. -/
def sizeWritten (r : Region) : Option Vector3 :=
  (to_nbt r).map (fun dv => dv.1.size)

/-! ### Helper lemmas -/

theorem wrap32_eq_self (n : Int) (h1 : -2 ^ 31 ≤ n) (h2 : n < 2 ^ 31) :
    wrap32 n = n := by
  unfold wrap32; omega

theorem castU64_eq_toNat (n : Int) (h1 : 0 ≤ n) (h2 : n < 2 ^ 64) :
    castU64 n = n.toNat := by
  unfold castU64; omega

theorem castI32_eq (n : Nat) (h : n < 2 ^ 31) : castI32 n = (n : Int) := by
  unfold castI32
  split_ifs with h' <;> omega

theorem bitlenAux_le (fuel n : Nat) : bitlenAux fuel n ≤ fuel := by
  induction fuel generalizing n with
  | zero => simp [bitlenAux]
  | succ fuel ih =>
    unfold bitlenAux
    split
    · omega
    · have := ih (n / 2); omega

theorem lt_two_pow_bitlenAux (fuel n : Nat) (h : n < 2 ^ fuel) :
    n < 2 ^ bitlenAux fuel n := by
  induction fuel generalizing n with
  | zero => simpa [bitlenAux] using h
  | succ fuel ih =>
    unfold bitlenAux
    split
    · omega
    · have h2 : n / 2 < 2 ^ fuel := by rw [pow_succ] at h; omega
      have := ih (n / 2) h2
      rw [pow_succ]
      omega

theorem bitlenAux_le_of_lt (fuel n b : Nat) (h : n < 2 ^ b) :
    bitlenAux fuel n ≤ b := by
  induction fuel generalizing n b with
  | zero => simp [bitlenAux]
  | succ fuel ih =>
    unfold bitlenAux
    split
    · omega
    · rename_i hn
      rcases b with _ | b'
      · simp at h; omega
      · have h2 : n / 2 < 2 ^ b' := by rw [pow_succ] at h; omega
        have := ih (n / 2) b' h2
        omega

theorem swapAxis_fst (a b : Int) : (swapAxis a b).1 = min a b := by
  unfold swapAxis; split_ifs <;> dsimp only <;> omega

theorem swapAxis_snd (a b : Int) : (swapAxis a b).2 = max a b := by
  unfold swapAxis; split_ifs <;> dsimp only <;> omega

theorem containsPoint_iff (v : Volume) (p : Vector3) :
    containsPoint v p ↔
      (min v.pos1.x v.pos2.x ≤ p.x ∧ p.x < max v.pos1.x v.pos2.x) ∧
      (min v.pos1.y v.pos2.y ≤ p.y ∧ p.y < max v.pos1.y v.pos2.y) ∧
      (min v.pos1.z v.pos2.z ≤ p.z ∧ p.z < max v.pos1.z v.pos2.z) := by
  unfold containsPoint Volume.make_size_positive
  dsimp only
  rw [swapAxis_fst, swapAxis_fst, swapAxis_fst, swapAxis_snd, swapAxis_snd, swapAxis_snd]
  tauto

theorem expand1_mono (p1 p2 v w : Int)
    (h1 : min p1 p2 ≤ w) (h2 : w < max p1 p2) :
    min (expand1 p1 p2 v).1 (expand1 p1 p2 v).2 ≤ w ∧
      w < max (expand1 p1 p2 v).1 (expand1 p1 p2 v).2 := by
  unfold expand1
  split_ifs <;> dsimp only <;> omega

theorem expand1_self (p1 p2 v : Int) (hlo : -2 ^ 31 ≤ v) (hhi : v < 2 ^ 31 - 1) :
    min (expand1 p1 p2 v).1 (expand1 p1 p2 v).2 ≤ v ∧
      v < max (expand1 p1 p2 v).1 (expand1 p1 p2 v).2 := by
  have ha : add32 v 1 = v + 1 := by unfold add32 wrap32; omega
  unfold expand1
  rw [ha]
  split_ifs <;> dsimp only <;> omega

theorem expand1_pos (p1 p2 v : Int) (h : p1 < p2) :
    (expand1 p1 p2 v).1 < (expand1 p1 p2 v).2 := by
  unfold expand1
  split_ifs <;> dsimp only <;> omega

theorem expand_to_fit_mono (v : Volume) (c p : Vector3) (h : containsPoint v p) :
    containsPoint (v.expand_to_fit c) p := by
  rw [containsPoint_iff] at h ⊢
  unfold Volume.expand_to_fit
  dsimp only
  exact ⟨expand1_mono _ _ _ _ h.1.1 h.1.2, expand1_mono _ _ _ _ h.2.1.1 h.2.1.2,
    expand1_mono _ _ _ _ h.2.2.1 h.2.2.2⟩

theorem expand_to_fit_self (v : Volume) (c : Vector3)
    (hx : -2 ^ 31 ≤ c.x ∧ c.x < 2 ^ 31 - 1)
    (hy : -2 ^ 31 ≤ c.y ∧ c.y < 2 ^ 31 - 1)
    (hz : -2 ^ 31 ≤ c.z ∧ c.z < 2 ^ 31 - 1) :
    containsPoint (v.expand_to_fit c) c := by
  rw [containsPoint_iff]
  unfold Volume.expand_to_fit
  dsimp only
  exact ⟨expand1_self _ _ _ hx.1 hx.2, expand1_self _ _ _ hy.1 hy.2,
    expand1_self _ _ _ hz.1 hz.2⟩

theorem expand_to_fit_pos (v : Volume) (c : Vector3)
    (h : v.pos1.x < v.pos2.x ∧ v.pos1.y < v.pos2.y ∧ v.pos1.z < v.pos2.z) :
    (v.expand_to_fit c).pos1.x < (v.expand_to_fit c).pos2.x ∧
    (v.expand_to_fit c).pos1.y < (v.expand_to_fit c).pos2.y ∧
    (v.expand_to_fit c).pos1.z < (v.expand_to_fit c).pos2.z := by
  unfold Volume.expand_to_fit
  dsimp only
  exact ⟨expand1_pos _ _ _ h.1, expand1_pos _ _ _ h.2.1, expand1_pos _ _ _ h.2.2⟩

theorem foldl_expand_mono (l : Blocks) (g : Vector3 × BlockState → Vector3) :
    ∀ (v : Volume) (p : Vector3), containsPoint v p →
      containsPoint (l.foldl (fun a kv => a.expand_to_fit (g kv)) v) p := by
  induction l with
  | nil => intro v p h; exact h
  | cons kv0 rest ih =>
    intro v p h
    rw [List.foldl_cons]
    exact ih _ p (expand_to_fit_mono v (g kv0) p h)

theorem foldl_expand_self (l : Blocks) (g : Vector3 × BlockState → Vector3) :
    ∀ (v : Volume) (kv : Vector3 × BlockState), kv ∈ l →
      (-2 ^ 31 ≤ (g kv).x ∧ (g kv).x < 2 ^ 31 - 1) →
      (-2 ^ 31 ≤ (g kv).y ∧ (g kv).y < 2 ^ 31 - 1) →
      (-2 ^ 31 ≤ (g kv).z ∧ (g kv).z < 2 ^ 31 - 1) →
      containsPoint (l.foldl (fun a kv' => a.expand_to_fit (g kv')) v) (g kv) := by
  induction l with
  | nil => intro v kv h; exact absurd h (List.not_mem_nil kv)
  | cons kv0 rest ih =>
    intro v kv hmem hx hy hz
    rw [List.foldl_cons]
    rcases List.mem_cons.mp hmem with h1 | h2
    · subst h1
      exact foldl_expand_mono rest g _ (g kv)
        (expand_to_fit_self v (g kv) hx hy hz)
    · exact ih _ kv h2 hx hy hz

theorem foldl_expand_pos (l : Blocks) (g : Vector3 × BlockState → Vector3) :
    ∀ (v : Volume),
      (v.pos1.x < v.pos2.x ∧ v.pos1.y < v.pos2.y ∧ v.pos1.z < v.pos2.z) →
      ((l.foldl (fun a kv => a.expand_to_fit (g kv)) v).pos1.x
          < (l.foldl (fun a kv => a.expand_to_fit (g kv)) v).pos2.x ∧
       (l.foldl (fun a kv => a.expand_to_fit (g kv)) v).pos1.y
          < (l.foldl (fun a kv => a.expand_to_fit (g kv)) v).pos2.y ∧
       (l.foldl (fun a kv => a.expand_to_fit (g kv)) v).pos1.z
          < (l.foldl (fun a kv => a.expand_to_fit (g kv)) v).pos2.z) := by
  induction l with
  | nil => intro v h; exact h
  | cons kv0 rest ih =>
    intro v h
    rw [List.foldl_cons]
    exact ih _ (expand_to_fit_pos v (g kv0) h)

theorem mlookup_minsert_self (m : Blocks) (k : Vector3) (v : BlockState) :
    mlookup (minsert m k v) k = some v := by
  induction m with
  | nil => simp [minsert, mlookup]
  | cons kv rest ih =>
    simp only [minsert]
    split
    · simp [mlookup]
    · rename_i hk
      simp only [mlookup]
      rw [if_neg hk, ih]

theorem mlookup_minsert_ne (m : Blocks) (k : Vector3) (v : BlockState)
    (q : Vector3) (h : q ≠ k) :
    mlookup (minsert m k v) q = mlookup m q := by
  have hkq : ¬ (k = q) := fun e => h e.symm
  induction m with
  | nil => simp [minsert, mlookup, hkq]
  | cons kv rest ih =>
    simp only [minsert]
    split
    · rename_i hk
      simp only [mlookup]
      rw [if_neg hkq, if_neg (by rw [hk]; exact hkq)]
    · simp only [mlookup, ih]

theorem mlookup_mremove_ne (m : Blocks) (k q : Vector3) (h : q ≠ k) :
    mlookup (mremove m k) q = mlookup m q := by
  induction m with
  | nil => simp [mremove]
  | cons kv rest ih =>
    simp only [mremove]
    split
    · rename_i hk
      simp only [mlookup]
      rw [if_neg (by rw [hk]; exact fun e => h e.symm)]
    · simp only [mlookup, ih]

theorem mlookup_eq_none_of_not_mem (m : Blocks) (k : Vector3)
    (h : k ∉ m.map Prod.fst) : mlookup m k = none := by
  induction m with
  | nil => simp [mlookup]
  | cons kv rest ih =>
    simp only [List.map_cons, List.mem_cons, not_or] at h
    simp only [mlookup]
    rw [if_neg (fun e => h.1 e.symm), ih h.2]

theorem mlookup_mremove_self (m : Blocks) (k : Vector3)
    (hnd : (m.map Prod.fst).Nodup) : mlookup (mremove m k) k = none := by
  induction m with
  | nil => simp [mremove, mlookup]
  | cons kv rest ih =>
    simp only [List.map_cons, List.nodup_cons] at hnd
    simp only [mremove]
    split
    · rename_i hk
      subst hk
      exact mlookup_eq_none_of_not_mem rest kv.1 hnd.1
    · rename_i hk
      simp only [mlookup]
      rw [if_neg hk, ih hnd.2]

theorem mem_minsert (m : Blocks) (k : Vector3) (v : BlockState)
    (kv' : Vector3 × BlockState) (h : kv' ∈ minsert m k v) :
    kv' = (k, v) ∨ kv' ∈ m := by
  induction m with
  | nil => simp [minsert] at h; exact Or.inl h
  | cons kv0 rest ih =>
    simp only [minsert] at h
    split at h
    · rcases List.mem_cons.mp h with h1 | h2
      · exact Or.inl h1
      · exact Or.inr (List.mem_cons.mpr (Or.inr h2))
    · rcases List.mem_cons.mp h with h1 | h2
      · exact Or.inr (List.mem_cons.mpr (Or.inl h1))
      · rcases ih h2 with h3 | h4
        · exact Or.inl h3
        · exact Or.inr (List.mem_cons.mpr (Or.inr h4))

theorem mem_mremove (m : Blocks) (k : Vector3)
    (kv' : Vector3 × BlockState) (h : kv' ∈ mremove m k) : kv' ∈ m := by
  induction m with
  | nil => simp [mremove] at h
  | cons kv0 rest ih =>
    simp only [mremove] at h
    split at h
    · exact List.mem_cons.mpr (Or.inr h)
    · rcases List.mem_cons.mp h with h1 | h2
      · exact List.mem_cons.mpr (Or.inl h1)
      · exact List.mem_cons.mpr (Or.inr (ih h2))

theorem airFree_minsert (m : Blocks) (k : Vector3) (v : BlockState)
    (h : airFree m) (hv : v ≠ airDefault) : airFree (minsert m k v) := by
  intro kv' hkv'
  rcases mem_minsert m k v kv' hkv' with h1 | h2
  · rw [h1]; exact hv
  · exact h kv' h2

theorem airFree_mremove (m : Blocks) (k : Vector3) (h : airFree m) :
    airFree (mremove m k) :=
  fun kv' hkv' => h kv' (mem_mremove m k kv' hkv')

theorem unpackStep_airFree (array : List Nat) (palette : List BlockState)
    (bits : Nat) (size : Vector3) (acc acc' : Blocks) (i : Nat)
    (h : airFree acc) (hstep : unpackStep array palette bits size acc i = some acc') :
    airFree acc' := by
  unfold unpackStep at hstep
  split at hstep
  · exact absurd hstep (by simp)
  · split at hstep
    · exact absurd hstep (by simp)
    · split at hstep
      · cases hstep; exact h
      · rename_i st hst hair
        cases hstep
        exact airFree_minsert acc _ st h hair

theorem foldlM_unpack_airFree (array : List Nat) (palette : List BlockState)
    (bits : Nat) (size : Vector3) (l : List Nat) :
    ∀ acc m, airFree acc →
      l.foldlM (unpackStep array palette bits size) acc = some m → airFree m := by
  induction l with
  | nil =>
    intro acc m h hf
    exact (Option.some.inj hf) ▸ h
  | cons i rest ih =>
    intro acc m h hf
    rcases hs : unpackStep array palette bits size acc i with _ | acc'
    · rw [List.foldlM_cons, hs] at hf
      exact Option.noConfusion hf
    · rw [List.foldlM_cons, hs] at hf
      exact ih acc' m (unpackStep_airFree array palette bits size acc acc' i h hs) hf

/-! ### Claim theorems -/

/-- C1 (code bug evaluation).  The get/set round trip fails in the code:
with a one-word array, width `b = 2` and field index `i = 31` (so
`i * b = 62 < 64`), writing the in-range value `v = 3` and reading it back
yields `2^64 - 1`, not `3` — `get_index_out_of_packed_array` shifts with
Rust's arithmetic `>>` on `i64`, so a field that covers bit 63 of its word
comes back sign-extended.  (The spec's §8 round-trip property is the
intent; a logical shift, as in the Java original's `>>>`, restores it.) -/
theorem claim_C1_roundtrip_code_eval :
    31 * 2 < 64 * ([0] : List Nat).length ∧ 3 < 2 ^ 2 ∧
    set_index_in_packed_array [0] 3 31 2 = [13835058055282163712] ∧
    get_index_out_of_packed_array (set_index_in_packed_array [0] 3 31 2) 31 2 =
      2 ^ 64 - 1 ∧
    get_index_out_of_packed_array (set_index_in_packed_array [0] 3 31 2) 31 2 ≠ 3 := by
  decide

/-- C2 (code bug evaluation).  The getter does not implement the
128-bit-window/mask semantics: on the single word `0xFFFFFFFFFFFFFFFF`
with `b = 2`, field 31 (bits 62..63), the code returns `2^64 - 1`
(arithmetic-shift sign extension) while the spec's description
(`get_index_spec128`) returns `3`; in particular the returned value is not
below `2^b`.  Downstream, `unpack_packed_array` uses the result to index
the palette, so such a word makes decoding panic. -/
theorem claim_C2_getter_code_eval :
    get_index_out_of_packed_array [2 ^ 64 - 1] 31 2 = 2 ^ 64 - 1 ∧
    get_index_spec128 [2 ^ 64 - 1] 31 2 = 3 ∧
    ¬ get_index_out_of_packed_array [2 ^ 64 - 1] 31 2 < 2 ^ 2 := by
  decide

/-- C3 (confirmed).  The literal region round trip: starting from
`Region::new()`, setting stone at (0,0,0), stone_bricks at (2,1,0) and
(2,2,0), and basalt at (5,2,1), encoding with `to_nbt` and decoding the
produced compound with `new_from_nbt` yields a region whose block map holds
exactly those four coordinate/state pairs and nothing else. -/
theorem claim_C3_region_round_trip :
    (((to_nbt (set_block (set_block (set_block (set_block Region.new
        ⟨0, 0, 0⟩ (BlockState.new ("stone") none))
        ⟨2, 1, 0⟩ (BlockState.new ("stone_bricks") none))
        ⟨2, 2, 0⟩ (BlockState.new ("stone_bricks") none))
        ⟨5, 2, 1⟩ (BlockState.new ("basalt") none))).map Prod.fst).map new_from_nbt)
    = some (.ok
        { volume := Volume.new ⟨0, 0, 0⟩ ⟨6, 3, 2⟩,
          blocks := [(⟨0, 0, 0⟩, BlockState.new ("stone") none),
                     (⟨2, 1, 0⟩, BlockState.new ("stone_bricks") none),
                     (⟨2, 2, 0⟩, BlockState.new ("stone_bricks") none),
                     (⟨5, 2, 1⟩, BlockState.new ("basalt") none)] }) := by
  decide

/-- C4 (code bug evaluation).  The `unreachable!()` branch in
`generate_block_states_nbt` IS reachable: decoding a region document with
`Position = (5,5,5)`, `Size = (1,1,1)`, palette `[air, stone]` and packed
word `[1]` succeeds and stores the block under the volume-relative key
(0,0,0); re-encoding that region subtracts the effective volume's origin
(5,5,5) from the key, `coords_to_index` returns `None`, and `to_nbt`
panics (modelled by `none`). -/
theorem claim_C4_relativization_panic_eval :
    new_from_nbt
      { blockStatePalette := [.compound ("minecraft:air") none,
                              .compound ("minecraft:stone") none],
        blockStates := [1], size := ⟨1, 1, 1⟩, position := ⟨5, 5, 5⟩ }
      = .ok { volume := Volume.new ⟨5, 5, 5⟩ ⟨1, 1, 1⟩,
              blocks := [(⟨0, 0, 0⟩, BlockState.new ("stone") none)] } ∧
    coords_to_index
      (Volume.new ⟨5, 5, 5⟩ ⟨1, 1, 1⟩).make_size_positive.size
      (vsub32 ⟨0, 0, 0⟩ (Volume.new ⟨5, 5, 5⟩ ⟨1, 1, 1⟩).make_size_positive.origin)
      = none ∧
    to_nbt { volume := Volume.new ⟨5, 5, 5⟩ ⟨1, 1, 1⟩,
             blocks := [(⟨0, 0, 0⟩, BlockState.new ("stone") none)] } = none := by
  decide

/-- C10 (confirmed).  `calculate_bits` is only well-defined for palette
lengths ≥ 1: at length 0 the subtraction `parsed_palette_length - 1` wraps
(`wrapSub64 0 1 = 2^64 - 1`, a debug build panics) and the function yields
64; and `new_from_nbt` applies `calculate_bits` to the parsed palette
length with no emptiness check, so decoding a document whose
`BlockStatePalette` is an empty list produces no structured parse error —
it returns a region with an empty block map. -/
theorem claim_C10_empty_palette :
    wrapSub64 0 1 = 2 ^ 64 - 1 ∧
    calculate_bits 0 = 64 ∧
    new_from_nbt { blockStatePalette := [], blockStates := [],
                   size := ⟨1, 1, 1⟩, position := ⟨0, 0, 0⟩ }
      = .ok { volume := Volume.new ⟨0, 0, 0⟩ ⟨1, 1, 1⟩, blocks := [] } := by
  decide

/-- C7 (confirmed).  For every palette size `n ≥ 1` (a `usize`, so
`n ≤ 2^64`), `calculate_bits n` is the smallest `b ≥ 2` with `2^b ≥ n`,
and the seven literal cases from the spec hold. -/
theorem claim_C7_calculate_bits (n : Nat) (h1 : 1 ≤ n) (h2 : n ≤ 2 ^ 64) :
    (2 ≤ calculate_bits n ∧ n ≤ 2 ^ calculate_bits n ∧
      ∀ b, 2 ≤ b → n ≤ 2 ^ b → calculate_bits n ≤ b) ∧
    calculate_bits 1 = 2 ∧ calculate_bits 2 = 2 ∧ calculate_bits 3 = 2 ∧
    calculate_bits 15 = 4 ∧ calculate_bits 16 = 4 ∧ calculate_bits 54 = 6 ∧
    calculate_bits 1360 = 11 := by
  refine ⟨?_, by decide, by decide, by decide, by decide, by decide, by decide, by decide⟩
  have hw : wrapSub64 n 1 = n - 1 := by unfold wrapSub64; omega
  have hle := bitlenAux_le 64 (n - 1)
  unfold calculate_bits leading_zeros64
  rw [hw]
  have h64 : 64 - (64 - bitlenAux 64 (n - 1)) = bitlenAux 64 (n - 1) := by omega
  rw [h64]
  refine ⟨le_max_right _ _, ?_, ?_⟩
  · have hlt : n - 1 < 2 ^ bitlenAux 64 (n - 1) :=
      lt_two_pow_bitlenAux 64 (n - 1) (by omega)
    have hmono : 2 ^ bitlenAux 64 (n - 1) ≤ 2 ^ max (bitlenAux 64 (n - 1)) 2 :=
      Nat.pow_le_pow_right (by norm_num) (le_max_left _ _)
    omega
  · intro b hb2 hnb
    exact max_le (bitlenAux_le_of_lt 64 (n - 1) b (by omega)) hb2

/-- Witness for C7 at the concrete palette size 54. -/
theorem claim_C7_calculate_bits_witness :
    (1 ≤ 54 ∧ 54 ≤ 2 ^ 64) ∧
    (54 ≤ 2 ^ calculate_bits 54 ∧ calculate_bits 54 ≤ 6) :=
  ⟨by decide,
   (claim_C7_calculate_bits 54 (by decide) (by decide)).1.2.1,
   (claim_C7_calculate_bits 54 (by decide) (by decide)).1.2.2 6 (by decide) (by decide)⟩

/-- C8 (confirmed).  The air-free invariant of the sparse block map:
a fresh region's map is air-free, a decoded region's map is air-free
(`unpack_packed_array` filters the default state out), `set_block`
preserves air-freeness, and `set_block pos b` removes the entry at `pos`
when `b` is the default air state, stores `b` at `pos` otherwise, and
leaves every other key's entry unchanged.  (`hnd`: a Rust `HashMap` never
holds duplicate keys.) -/
theorem claim_C8_air_invariant (r : Region) (pos : Vector3) (block : BlockState)
    (hnd : (r.blocks.map Prod.fst).Nodup) :
    airFree Region.new.blocks ∧
    (∀ (doc : RegionDoc) (r2 : Region), new_from_nbt doc = .ok r2 → airFree r2.blocks) ∧
    (airFree r.blocks → airFree (set_block r pos block).blocks) ∧
    mlookup (set_block r pos block).blocks pos
      = (if block = airDefault then none else some block) ∧
    (∀ q, q ≠ pos → mlookup (set_block r pos block).blocks q = mlookup r.blocks q) := by
  refine ⟨?_, ?_, ?_, ?_, ?_⟩
  · intro kv hkv
    simp [Region.new] at hkv
  · intro doc r2 hdec
    unfold new_from_nbt at hdec
    split at hdec
    · exact absurd hdec (by simp)
    · rename_i pal hp
      split at hdec
      · exact absurd hdec (by simp)
      · rename_i bl hu
        cases hdec
        unfold unpack_packed_array at hu
        exact foldlM_unpack_airFree doc.blockStates pal (calculate_bits pal.length)
          doc.size _ [] bl (fun kv hkv => absurd hkv (List.not_mem_nil kv)) hu
  · intro hair
    unfold set_block
    split
    · rename_i hb
      exact airFree_minsert r.blocks pos block hair hb
    · exact airFree_mremove r.blocks pos hair
  · unfold set_block
    by_cases hb : block = airDefault
    · rw [if_neg (by simp [hb]), if_pos hb]
      exact mlookup_mremove_self r.blocks pos hnd
    · rw [if_pos hb, if_neg hb]
      exact mlookup_minsert_self r.blocks pos block
  · intro q hq
    unfold set_block
    split
    · exact mlookup_minsert_ne r.blocks pos block q hq
    · exact mlookup_mremove_ne r.blocks pos q hq

/-- Witness for C8: a fresh region, setting stone at the origin. -/
theorem claim_C8_air_invariant_witness :
    ((Region.new.blocks.map Prod.fst).Nodup) ∧
    mlookup (set_block Region.new ⟨0, 0, 0⟩ (BlockState.new ("stone") none)).blocks
        ⟨0, 0, 0⟩
      = (if BlockState.new ("stone") none = airDefault then none
         else some (BlockState.new ("stone") none)) :=
  ⟨by decide,
   (claim_C8_air_invariant Region.new ⟨0, 0, 0⟩ (BlockState.new ("stone") none)
     (by decide)).2.2.2.1⟩

/-- C5 (counterexample).  `Region::volume()` does NOT fold `expand_to_fit`
over the stored keys themselves: with a declared volume at origin (5,5,5)
of size (1,1,1) and one stored key (0,0,0), the method leaves the volume
unchanged (it expands to fit `key + origin = (5,5,5)`), while folding over
the key itself would move the origin to (0,0,0). -/
theorem claim_C5_counterexample :
    Region.volume' { volume := Volume.new ⟨5, 5, 5⟩ ⟨1, 1, 1⟩,
                     blocks := [(⟨0, 0, 0⟩, BlockState.new ("stone") none)] }
    ≠ List.foldl (fun v kv => v.expand_to_fit kv.1)
        (Volume.new ⟨5, 5, 5⟩ ⟨1, 1, 1⟩)
        [(⟨0, 0, 0⟩, BlockState.new ("stone") none)] := by
  decide

/-- C6 (counterexample).  The bijection claim fails once the `i32` volume
product overflows: for size `s = (46341, 1, 46341)` (all components
non-negative) and `i = 2147479015 < |46341 * 1 * 46341| = 2147488281`,
`index_to_coords` returns `None` (the code's `i32` product wraps to
`-2147479015`, whose absolute value `2147479015 ≤ i` trips the range
check), so the round trip does not return `Some i` and "None exactly when
`i ≥ |s.x*s.y*s.z|`" fails. -/
theorem claim_C6_counterexample :
    (0 : Int) ≤ 46341 ∧ (0 : Int) ≤ 1 ∧
    (2147479015 : Int) < |(46341 : Int) * 1 * 46341| ∧
    index_to_coords ⟨46341, 1, 46341⟩ 2147479015 = none := by
  decide

/-- C5 (amended, proved).  `Region::volume()` equals the declared volume
folded with `expand_to_fit` over every stored key TRANSLATED BY THE
DECLARED ORIGIN (`key + origin`, the code's wrapping `i32` vector
addition), and — provided each translated key component stays in
`[-2^31, 2^31-2]`, so no `i32` arithmetic wraps — the result's normalized
point set contains every translated stored key and everything the declared
volume contained. -/
theorem claim_C5_amended (r : Region)
    (hb : ∀ kv ∈ r.blocks,
      (-2 ^ 31 ≤ kv.1.x + r.volume.origin.x ∧ kv.1.x + r.volume.origin.x < 2 ^ 31 - 1) ∧
      (-2 ^ 31 ≤ kv.1.y + r.volume.origin.y ∧ kv.1.y + r.volume.origin.y < 2 ^ 31 - 1) ∧
      (-2 ^ 31 ≤ kv.1.z + r.volume.origin.z ∧ kv.1.z + r.volume.origin.z < 2 ^ 31 - 1)) :
    Region.volume' r = r.blocks.foldl
        (fun v kv => v.expand_to_fit (vadd32 kv.1 r.volume.origin)) r.volume ∧
    (∀ kv ∈ r.blocks, containsPoint (Region.volume' r) (vadd32 kv.1 r.volume.origin)) ∧
    (∀ p, containsPoint r.volume p → containsPoint (Region.volume' r) p) := by
  refine ⟨rfl, ?_, ?_⟩
  · intro kv hkv
    have hbk := hb kv hkv
    have ex : -2 ^ 31 ≤ (vadd32 kv.1 r.volume.origin).x ∧
        (vadd32 kv.1 r.volume.origin).x < 2 ^ 31 - 1 := by
      have h := hbk.1
      unfold vadd32 add32 wrap32
      dsimp only
      omega
    have ey : -2 ^ 31 ≤ (vadd32 kv.1 r.volume.origin).y ∧
        (vadd32 kv.1 r.volume.origin).y < 2 ^ 31 - 1 := by
      have h := hbk.2.1
      unfold vadd32 add32 wrap32
      dsimp only
      omega
    have ez : -2 ^ 31 ≤ (vadd32 kv.1 r.volume.origin).z ∧
        (vadd32 kv.1 r.volume.origin).z < 2 ^ 31 - 1 := by
      have h := hbk.2.2
      unfold vadd32 add32 wrap32
      dsimp only
      omega
    unfold Region.volume'
    exact foldl_expand_self r.blocks (fun kv' => vadd32 kv'.1 r.volume.origin)
      r.volume kv hkv ex ey ez
  · intro p hp
    unfold Region.volume'
    exact foldl_expand_mono r.blocks (fun kv' => vadd32 kv'.1 r.volume.origin)
      r.volume p hp

/-- Witness for C5 at a concrete region: declared volume at the default
origin, one stone block stored at (1,2,3). -/
theorem claim_C5_amended_witness :
    containsPoint
      (Region.volume' { volume := ⟨⟨0, 0, 0⟩, ⟨0, 0, 0⟩⟩,
                        blocks := [(⟨1, 2, 3⟩, BlockState.new ("stone") none)] })
      (vadd32 ⟨1, 2, 3⟩ ⟨0, 0, 0⟩) :=
  (claim_C5_amended
      { volume := ⟨⟨0, 0, 0⟩, ⟨0, 0, 0⟩⟩,
        blocks := [(⟨1, 2, 3⟩, BlockState.new ("stone") none)] }
      (by decide)).2.1
    (⟨1, 2, 3⟩, BlockState.new ("stone") none) (by decide)

/-- The `Size` a non-panicking `to_nbt` writes is the effective volume's
raw (unnormalized) size. -/
theorem sizeWritten_eq (r : Region) (s : Vector3) (hs : sizeWritten r = some s) :
    s = (Region.volume' r).size := by
  unfold sizeWritten to_nbt at hs
  split at hs
  · exact absurd hs (by simp)
  · simp only [Option.map] at hs
    exact (Option.some.inj hs).symm

/-- C9 (amended, proved).  For every Region whose declared volume has
`pos1 < pos2` on every axis (strictly positive declared size) and whose
effective volume's extent is below `2^31` per axis (no `i32` overflow in
`pos2 - pos1`), every component of the `Size` field that `to_nbt` writes
is non-negative. -/
theorem claim_C9_amended (r : Region)
    (hdecl : r.volume.pos1.x < r.volume.pos2.x ∧ r.volume.pos1.y < r.volume.pos2.y ∧
      r.volume.pos1.z < r.volume.pos2.z)
    (hext : (Region.volume' r).pos2.x - (Region.volume' r).pos1.x < 2 ^ 31 ∧
      (Region.volume' r).pos2.y - (Region.volume' r).pos1.y < 2 ^ 31 ∧
      (Region.volume' r).pos2.z - (Region.volume' r).pos1.z < 2 ^ 31)
    (s : Vector3) (hs : sizeWritten r = some s) :
    0 ≤ s.x ∧ 0 ≤ s.y ∧ 0 ≤ s.z := by
  have hpos : (Region.volume' r).pos1.x < (Region.volume' r).pos2.x ∧
      (Region.volume' r).pos1.y < (Region.volume' r).pos2.y ∧
      (Region.volume' r).pos1.z < (Region.volume' r).pos2.z :=
    foldl_expand_pos r.blocks (fun kv => vadd32 kv.1 r.volume.origin) r.volume hdecl
  have hs' := sizeWritten_eq r s hs
  subst hs'
  unfold Volume.size vsub32 sub32 wrap32
  dsimp only
  omega

/-- Witness for C9 at a concrete region: declared volume of size (1,1,1)
at the origin, no blocks; the written Size is (1,1,1). -/
theorem claim_C9_amended_witness :
    sizeWritten { volume := Volume.new ⟨0, 0, 0⟩ ⟨1, 1, 1⟩, blocks := [] }
      = some ⟨1, 1, 1⟩ ∧
    (0 ≤ (⟨1, 1, 1⟩ : Vector3).x ∧ 0 ≤ (⟨1, 1, 1⟩ : Vector3).y ∧
      0 ≤ (⟨1, 1, 1⟩ : Vector3).z) :=
  ⟨by decide,
   claim_C9_amended { volume := Volume.new ⟨0, 0, 0⟩ ⟨1, 1, 1⟩, blocks := [] }
     (by decide) (by decide) ⟨1, 1, 1⟩ (by decide)⟩

/-- C9 (counterexample).  The `Size` field written by `to_nbt` can be
negative: starting from `Region::new()` and setting one stone block at
(-1,-1,-1), the effective volume becomes `pos1 = (0,0,0)`,
`pos2 = (-1,-1,-1)` and `to_nbt` writes `Size = volume.size() =
(-1,-1,-1)` — the source normalizes the volume only for the packed-array
generation, not for the written `Size`. -/
theorem claim_C9_counterexample :
    sizeWritten (set_block Region.new ⟨-1, -1, -1⟩ (BlockState.new ("stone") none))
      = some ⟨-1, -1, -1⟩ ∧
    ¬ (0 : Int) ≤ (-1 : Int) := by
  decide

theorem castU64_natCast (n : Nat) (h : n < 2 ^ 64) : castU64 (n : Int) = n := by
  unfold castU64; omega

theorem neg_two31_le_natCast (n : Nat) : (-2 ^ 31 : Int) ≤ (n : Int) :=
  le_trans (by norm_num) (Int.natCast_nonneg n)

theorem natCast_lt_two31 (n : Nat) (h : n < 2 ^ 31) : (n : Int) < 2 ^ 31 := by
  exact_mod_cast h

/-- Under componentwise non-negativity and a non-overflowing product, the
`i32` volume computation agrees with the mathematical product. -/
theorem vecVolume_eq (s : Vector3) (hx : 0 ≤ s.x) (hy : 0 ≤ s.y) (hz : 0 ≤ s.z)
    (hprod : s.x * s.y * s.z < 2 ^ 31) :
    vecVolume s = s.x * s.y * s.z := by
  rcases hz.lt_or_eq with hz1 | hz0
  · have hz1' : (1 : Int) ≤ s.z := hz1
    have hxy0 : 0 ≤ s.x * s.y := mul_nonneg hx hy
    have hxy_le : s.x * s.y ≤ s.x * s.y * s.z := le_mul_of_one_le_right hxy0 hz1'
    have hp0 : 0 ≤ s.x * s.y * s.z := mul_nonneg hxy0 hz
    have h1 : mul32 s.x s.y = s.x * s.y := by
      unfold mul32; exact wrap32_eq_self _ (by linarith) (by linarith)
    have h2 : mul32 (s.x * s.y) s.z = s.x * s.y * s.z := by
      unfold mul32; exact wrap32_eq_self _ (by linarith) (by linarith)
    unfold vecVolume
    rw [h1, h2]
    exact abs_of_nonneg hp0
  · have h1 : mul32 (mul32 s.x s.y) s.z = 0 := by
      rw [← hz0]
      unfold mul32 wrap32
      rw [mul_zero]
      decide
    unfold vecVolume
    rw [h1, ← hz0, mul_zero]
    simp

/-- C6 (amended, proved).  The coordinate/index bijection, under the
side conditions the `i32` arithmetic needs: the size components are
non-negative `i32` values and the product `s.x*s.y*s.z` does not overflow
`i32`.  Then (1) for every index below the product, `index_to_coords`
followed by `coords_to_index` returns the index; (2) `index_to_coords`
returns `none` exactly for indices at or above the product; (3)
`coords_to_index` returns `none` exactly for points outside `[0, s)` on
some axis. -/
theorem claim_C6_amended (s : Vector3)
    (hx : 0 ≤ s.x) (hy : 0 ≤ s.y) (hz : 0 ≤ s.z)
    (hx2 : s.x < 2 ^ 31) (hy2 : s.y < 2 ^ 31) (hz2 : s.z < 2 ^ 31)
    (hprod : s.x * s.y * s.z < 2 ^ 31) :
    (∀ i : Nat, (i : Int) < s.x * s.y * s.z →
      (index_to_coords s i).bind (coords_to_index s) = some i) ∧
    (∀ i : Nat, index_to_coords s i = none ↔ s.x * s.y * s.z ≤ (i : Int)) ∧
    (∀ p : Vector3, coords_to_index s p = none ↔
      ¬ (0 ≤ p.x ∧ p.x < s.x ∧ 0 ≤ p.y ∧ p.y < s.y ∧ 0 ≤ p.z ∧ p.z < s.z)) := by
  have hp0 : 0 ≤ s.x * s.y * s.z := mul_nonneg (mul_nonneg hx hy) hz
  refine ⟨?_, ?_, ?_⟩
  · -- part 1: the round trip
    intro i hi
    -- all components are strictly positive
    have hx1 : 0 < s.x := by
      rcases hx.lt_or_eq with h | h
      · exact h
      · exfalso; rw [← h, zero_mul, zero_mul] at hi; omega
    have hy1 : 0 < s.y := by
      rcases hy.lt_or_eq with h | h
      · exact h
      · exfalso; rw [← h, mul_zero, zero_mul] at hi; omega
    have hz1 : 0 < s.z := by
      rcases hz.lt_or_eq with h | h
      · exact h
      · exfalso; rw [← h, mul_zero] at hi; omega
    -- move to natural numbers
    set A := s.x.toNat with hAdef
    set B := s.y.toNat with hBdef
    set C := s.z.toNat with hCdef
    have hA : s.x = (A : Int) := (Int.toNat_of_nonneg hx).symm
    have hB : s.y = (B : Int) := (Int.toNat_of_nonneg hy).symm
    have hC : s.z = (C : Int) := (Int.toNat_of_nonneg hz).symm
    have hA0 : 0 < A := by omega
    have hB0 : 0 < B := by omega
    have hC0 : 0 < C := by omega
    have hA31 : A < 2 ^ 31 := by omega
    have hB31 : B < 2 ^ 31 := by omega
    have hC31 : C < 2 ^ 31 := by omega
    have hcastProd : ((A * B * C : Nat) : Int) = s.x * s.y * s.z := by
      push_cast
      rw [← hA, ← hB, ← hC]
    have hiN : i < A * B * C := by omega
    have hprodN : A * B * C < 2 ^ 31 := by omega
    have hAC0 : 0 < A * C := Nat.mul_pos hA0 hC0
    have hACB : (A * C) * B = A * B * C := by ring
    have hACle : A * C ≤ A * B * C := by
      have h1 := Nat.mul_le_mul_left (A * C) hB0
      rw [Nat.mul_one] at h1
      omega
    -- the decomposed coordinates and their bounds
    have hy' : i / (A * C) < B := by
      rw [Nat.div_lt_iff_lt_mul hAC0]
      have e : B * (A * C) = A * B * C := by ring
      omega
    have hmod : i % (A * C) < A * C := Nat.mod_lt i hAC0
    have hz' : (i % (A * C)) / A < C := by
      rw [Nat.div_lt_iff_lt_mul hA0]
      have e : C * A = A * C := by ring
      omega
    have hx' : (i % (A * C)) % A < A := Nat.mod_lt _ hA0
    -- the recomposition identity
    have key : (i / (A * C)) * A * C + ((i % (A * C)) / A) * A + (i % (A * C)) % A
        = i := by
      have h1 := Nat.div_add_mod i (A * C)
      have h2 := Nat.div_add_mod (i % (A * C)) A
      have e : (i / (A * C)) * A * C + ((i % (A * C)) / A) * A + (i % (A * C)) % A
          = A * C * (i / (A * C)) + (A * ((i % (A * C)) / A) + (i % (A * C)) % A) := by
        ring
      rw [e, h2, h1]
    -- bounds on the partial products, all below 2^31
    have hyAC_le : (i / (A * C)) * A * C ≤ i := by omega
    have hyA_le : (i / (A * C)) * A ≤ (i / (A * C)) * A * C := by
      have h1 := Nat.mul_le_mul_left ((i / (A * C)) * A) hC0
      rw [Nat.mul_one] at h1
      exact h1
    have hzA_le : ((i % (A * C)) / A) * A ≤ i := by omega
    have hyA31 : (i / (A * C)) * A < 2 ^ 31 := by omega
    have hyAC31 : (i / (A * C)) * A * C < 2 ^ 31 := by omega
    have hzA31 : ((i % (A * C)) / A) * A < 2 ^ 31 := by omega
    have hsum31 : (i / (A * C)) * A * C + ((i % (A * C)) / A) * A < 2 ^ 31 := by
      omega
    have hsum231 : (i / (A * C)) * A * C + ((i % (A * C)) / A) * A
        + (i % (A * C)) % A < 2 ^ 31 := by omega
    have hi64 : i < 2 ^ 64 := by omega
    -- evaluation of the i32 casts in index_to_coords
    have hm32 : mul32 s.x s.z = ((A * C : Nat) : Int) := by
      rw [hA, hC]
      unfold mul32
      rw [← Nat.cast_mul]
      exact wrap32_eq_self _ (by omega) (by omega)
    have hidx : index_to_coords s i
        = some ⟨(((i % (A * C)) % A : Nat) : Int), ((i / (A * C) : Nat) : Int),
                (((i % (A * C)) / A : Nat) : Int)⟩ := by
      unfold index_to_coords
      rw [vecVolume_eq s hx hy hz hprod, ← hcastProd,
        castU64_natCast (A * B * C) (by omega), hm32,
        castU64_natCast (A * C) (by omega), hA, castU64_natCast A (by omega),
        if_neg (by omega)]
      rw [castI32_eq _ (by omega), castI32_eq _ (by omega), castI32_eq _ (by omega)]
    -- cast-level bounds on the decomposed coordinates
    have hxnn : (0 : Int) ≤ (((i % (A * C)) % A : Nat) : Int) := Int.natCast_nonneg _
    have hynn : (0 : Int) ≤ ((i / (A * C) : Nat) : Int) := Int.natCast_nonneg _
    have hznn : (0 : Int) ≤ (((i % (A * C)) / A : Nat) : Int) := Int.natCast_nonneg _
    have hxlt2 : (((i % (A * C)) % A : Nat) : Int) < (A : Int) := by exact_mod_cast hx'
    have hylt2 : ((i / (A * C) : Nat) : Int) < (B : Int) := by exact_mod_cast hy'
    have hzlt2 : (((i % (A * C)) / A : Nat) : Int) < (C : Int) := by exact_mod_cast hz'
    -- evaluation of coords_to_index at the decomposed point
    have hcond : fits_in_positive
          (⟨(((i % (A * C)) % A : Nat) : Int), ((i / (A * C) : Nat) : Int),
            (((i % (A * C)) / A : Nat) : Int)⟩ : Vector3) ⟨0, 0, 0⟩ ∧
        fits_in_negative
          ⟨(((i % (A * C)) % A : Nat) : Int), ((i / (A * C) : Nat) : Int),
            (((i % (A * C)) / A : Nat) : Int)⟩ (vsub32 s ⟨1, 1, 1⟩) := by
      unfold fits_in_positive fits_in_negative vsub32 sub32 wrap32
      dsimp only
      refine ⟨⟨?_, ?_, ?_⟩, ?_, ?_, ?_⟩ <;> omega
    have e1 : mul32 ((i / (A * C) : Nat) : Int) s.x = (((i / (A * C)) * A : Nat) : Int) := by
      rw [hA]
      unfold mul32
      rw [← Nat.cast_mul]
      exact wrap32_eq_self _ (neg_two31_le_natCast _) (natCast_lt_two31 _ hyA31)
    have e2 : mul32 (((i / (A * C)) * A : Nat) : Int) s.z
        = (((i / (A * C)) * A * C : Nat) : Int) := by
      rw [hC]
      unfold mul32
      rw [← Nat.cast_mul]
      exact wrap32_eq_self _ (neg_two31_le_natCast _) (natCast_lt_two31 _ hyAC31)
    have e3 : mul32 ((((i % (A * C)) / A) : Nat) : Int) s.x
        = ((((i % (A * C)) / A) * A : Nat) : Int) := by
      rw [hA]
      unfold mul32
      rw [← Nat.cast_mul]
      exact wrap32_eq_self _ (neg_two31_le_natCast _) (natCast_lt_two31 _ hzA31)
    have e4 : add32 (((i / (A * C)) * A * C : Nat) : Int)
          ((((i % (A * C)) / A) * A : Nat) : Int)
        = (((i / (A * C)) * A * C + ((i % (A * C)) / A) * A : Nat) : Int) := by
      unfold add32
      rw [← Nat.cast_add]
      exact wrap32_eq_self _ (neg_two31_le_natCast _) (natCast_lt_two31 _ hsum31)
    have e5 : add32 (((i / (A * C)) * A * C + ((i % (A * C)) / A) * A : Nat) : Int)
          (((i % (A * C)) % A : Nat) : Int)
        = (((i / (A * C)) * A * C + ((i % (A * C)) / A) * A + (i % (A * C)) % A : Nat)
            : Int) := by
      unfold add32
      rw [← Nat.cast_add]
      exact wrap32_eq_self _ (neg_two31_le_natCast _) (natCast_lt_two31 _ hsum231)
    rw [hidx]
    show coords_to_index s
      ⟨(((i % (A * C)) % A : Nat) : Int), ((i / (A * C) : Nat) : Int),
        (((i % (A * C)) / A : Nat) : Int)⟩ = some i
    unfold coords_to_index
    rw [if_pos hcond]
    dsimp only
    rw [e1, e2, e3, e4, e5, key, castU64_natCast i hi64]
  · -- part 2: index_to_coords is none exactly at or above the product
    intro i
    unfold index_to_coords
    rw [vecVolume_eq s hx hy hz hprod, castU64_eq_toNat _ hp0 (by omega)]
    split_ifs with h <;> simp <;> omega
  · -- part 3: coords_to_index is none exactly outside [0, s)
    intro p
    unfold coords_to_index fits_in_positive fits_in_negative vsub32 sub32 wrap32
    dsimp only
    split_ifs with h <;> simp <;> omega

/-- Witness for C6 at the concrete size (2,3,4), index 5. -/
theorem claim_C6_amended_witness :
    ((0 : Int) ≤ 2 ∧ (2 : Int) < 2 ^ 31 ∧ (2 * 3 * 4 : Int) < 2 ^ 31) ∧
    (index_to_coords ⟨2, 3, 4⟩ 5).bind (coords_to_index ⟨2, 3, 4⟩) = some 5 :=
  ⟨⟨by decide, by decide, by decide⟩,
   (claim_C6_amended ⟨2, 3, 4⟩ (by decide) (by decide) (by decide) (by decide)
     (by decide) (by decide) (by decide)).1 5 (by decide)⟩

end Litematic
